import Mathlib

/-!
Verification of the mediocre-go-lib configuration engine (`mcfg`), its CLI
source (`mcfg/cli.go`), and the `mctx` mutable node store, against a shallow
embedding of the Go source in `src/`.

Embedding conventions:
* Go strings are Lean `String`s; byte-level operations (`strings.HasPrefix`,
  `strings.TrimPrefix`) are modelled on the character list `String.data`.
* Go maps keyed by strings are modelled as association lists; a lookup is
  `List.lookup`-style first-match search.  Where Go iterates a map in a
  nondeterministic order, the model either takes insertion order (when no
  proved statement depends on the order) or is parameterized by the order.
* `json.RawMessage` values are plain strings.
* A Go pointer target (`Param.Into`) is modelled by a `Nat` identity, and the
  collection of all pointed-to cells by a state function `Nat → String`.
* `panic` and returned `error`s are distinguished constructors of the result
  type of `populate`.
-/

namespace Mcfg

/-- A declared configuration parameter, translated from the `Param` struct of
package `mcfg` (the struct declaration itself lives in a file not included
under `src/`; the fields below are exactly the ones the included code uses:
`p.Context`/`p.Path` (the owning scope's path), `p.Name`, `p.Required`,
`p.IsBool`, `p.Into`, and the `fuzzyParse` coercion method).  `mctx.Path
(p.Context)` and `p.Path` are the same path, modelled by the single field
`path`.  The `Usage` and `IsString` fields are used only by help rendering,
which is not modelled.  `fuzzyParse` (a per-`Param` coercion from the raw CLI
text to a value representation, used at `src/mcfg/cli.go:110`) is kept
abstract as a function-valued field. -/
structure Param where
  path : List String
  name : String
  required : Bool
  isBool : Bool
  into : Nat
  fuzzyParse : String → String

/-- The result of parsing external input, translated from the `ParamValue`
struct: it embeds the `Param` it targets (`src/mcfg/cli.go:75` sets
`pv.Param`; the promoted fields `pv.Path`/`pv.Name` read from this embedded
`Param`) and carries the raw value (`json.RawMessage`, modelled as a
string). -/
structure ParamValue where
  param : Param
  value : String

/-- A Source, per the `Source` interface: a function from all declared Params
to a list of ParamValues or a descriptive error. -/
structure Source where
  parse : List Param → Except String (List ParamValue)

/-- Modelled from the spec: `ParamValues` is a Source returning exactly its
own list of ParamValues with no error; `populate` substitutes
`ParamValues(nil)` for a nil Source (`src/mcfg/mcfg.go:76-78`), behaving as
if zero values were parsed. -/
def paramValuesSource (pvs : List ParamValue) : Source :=
  ⟨fun _ => .ok pvs⟩

/-- The identity key of a Param, translated from `paramHash`
(`src/mcfg/mcfg.go:64-73`).  The Go function writes the injective encoding
`pathEl:%q\n … name:%q\n` of `(path, name)` into an md5 hasher and returns
the full name plus the hex digest; the result is used solely as a map key, so
the digest is modelled by the `(path, name)` pair it injectively encodes
(md5 collisions are assumed absent, exactly as the code assumes). -/
def paramHash (path : List String) (name : String) : List String × String :=
  (path, name)

/-- Modelled from the spec: the fully-qualified `path/name` display string of
a parameter (the `paramFullName` helper is referenced at
`src/mcfg/mcfg.go:72,87,114` but its body lies in a file not under
`src/`). -/
def paramFullName (path : List String) (name : String) : String :=
  String.intercalate "/" (path ++ [name])

/-- The hash key of a Param. -/
def Param.key (p : Param) : List String × String :=
  paramHash p.path p.name

/-- The hash key of a ParamValue (`paramHash(pv.Path, pv.Name)` at
`src/mcfg/mcfg.go:101`, where `pv.Path`/`pv.Name` are the embedded Param's
fields). -/
def ParamValue.key (pv : ParamValue) : List String × String :=
  paramHash pv.param.path pv.param.name

/-- Association-list lookup, the model of a Go map read. -/
def alookup {β : Type} (m : List ((List String × String) × β))
    (k : List String × String) : Option β :=
  match m with
  | [] => none
  | (k', v) :: rest => if k' = k then some v else alookup rest k

/-- Building the Param map `pM` (`src/mcfg/mcfg.go:82-90`): insert each Param
keyed by its hash in order; a key already present is the duplicate-Param
panic. -/
def insertPM (params : List Param) (m : List ((List String × String) × Param)) :
    Except String (List ((List String × String) × Param)) :=
  match params with
  | [] => .ok m
  | p :: rest =>
    if (alookup m p.key).isSome then
      .error ("duplicate Param: " ++ paramFullName p.path p.name)
    else
      insertPM rest (m ++ [(p.key, p)])

/-- `pM`, the map from hash to declared Param; an `.error` is the Go
`panic`. -/
def buildPM (params : List Param) :
    Except String (List ((List String × String) × Param)) :=
  insertPM params []

/-- Insert-or-replace into an association list: the model of a Go map
write, where writing an existing key overwrites its value in place. -/
def ainsert {β : Type} (k : List String × String) (v : β) :
    List ((List String × String) × β) → List ((List String × String) × β)
  | [] => [(k, v)]
  | (k', v') :: rest =>
    if k' = k then (k, v) :: rest else (k', v') :: ainsert k v rest

/-- Building the deduplicated ParamValue map `pvM`
(`src/mcfg/mcfg.go:97-106`): iterate the parsed ParamValues in order, drop
any whose hash has no declared Param, and let a later ParamValue with the
same hash overwrite an earlier one (last one wins). -/
def buildPvM (pM : List ((List String × String) × Param))
    (pvs : List ParamValue) : List ((List String × String) × ParamValue) :=
  pvs.foldl
    (fun m pv => if (alookup pM pv.key).isSome then ainsert pv.key pv m else m)
    []

/-- The required-parameter check (`src/mcfg/mcfg.go:108-117`): find a
declared Param that is required but has no surviving ParamValue.  (Go
iterates the map in a nondeterministic order; the model searches in
insertion order, which is one of the possible orders.) -/
def findMissingRequired (pM : List ((List String × String) × Param))
    (pvM : List ((List String × String) × ParamValue)) : Option Param :=
  (pM.find? (fun e => e.2.required && (alookup pvM e.1).isNone)).map (·.2)

/-- The state of every Param target cell, indexed by pointer identity. -/
def TState : Type := Nat → String

/-- The population loop (`src/mcfg/mcfg.go:119-126`): for each surviving
ParamValue, decode its raw value into the matching Param's target;
`json.Unmarshal` is modelled by the abstract decoder `decode`, a decode
failure aborts with the raw value, and the writes performed so far persist.
The `none` lookup branch is unreachable: every key of `pvM` has a
corresponding Param in `pM` by construction. -/
def writeAll (decode : String → Option String)
    (pM : List ((List String × String) × Param)) :
    List ((List String × String) × ParamValue) → TState →
    Except (String × TState) TState
  | [], st => .ok st
  | (h, pv) :: rest, st =>
    match alookup pM h with
    | none => writeAll decode pM rest st
    | some p =>
      match decode pv.value with
      | none => .error (pv.value, st)
      | some v => writeAll decode pM rest (Function.update st p.into v)

/-- The errors `populate` can return. -/
inductive PopErr where
  | srcError (msg : String)
  | requiredNotSet (fullName : String)
  | unmarshalFailed (rawValue : String)
deriving DecidableEq

/-- The outcome of `populate`: a `panic` (duplicate Param), a returned error
together with the target state at the time of the failure, or success with
the final target state. -/
inductive POut where
  | panicked (msg : String)
  | failed (e : PopErr) (st : TState)
  | success (st : TState)

/-- `populate` (`src/mcfg/mcfg.go:75-129`), translated clause by clause:
substitute the empty `ParamValues` Source for nil; build `pM`, panicking on
a duplicate hash; ask the Source to parse; dedupe and filter into `pvM`;
fail on a missing required Param before writing anything; then decode every
surviving ParamValue into its Param's target. -/
def populate (decode : String → Option String) (params : List Param)
    (src : Option Source) (st : TState) : POut :=
  match buildPM params with
  | .error msg => .panicked msg
  | .ok pM =>
    match (src.getD (paramValuesSource [])).parse params with
    | .error e => .failed (.srcError e) st
    | .ok pvs =>
      let pvM := buildPvM pM pvs
      match findMissingRequired pM pvM with
      | some p => .failed (.requiredNotSet (paramFullName p.path p.name)) st
      | none =>
        match writeAll decode pM pvM st with
        | .error (v, st') => .failed (.unmarshalFailed v) st'
        | .ok st' => .success st'

/-- The `less` comparator of `sortParams` (`src/mcfg/mcfg.go:21-40`),
translated from the loop: compare the two paths element by element; when
both are exhausted compare the names; when exactly one is exhausted the
Param with the longer path sorts first (the loop returns false when `a`'s
path is exhausted and `b`'s is not, and true in the symmetric case); at the
first differing path segment compare the segments as strings.  (Go compares
strings byte-wise; Lean's `String` order compares characters, which agrees
on ASCII paths.) -/
def pathNameLess : List String → String → List String → String → Bool
  | [], an, [], bn => decide (an < bn)
  | [], _, _ :: _, _ => false
  | _ :: _, _, [], _ => true
  | a :: as, an, b :: bs, bn =>
    if a ≠ b then decide (a < b) else pathNameLess as an bs bn

/-- The `sort.Slice` comparator of `sortParams` applied to two Params. -/
def paramLess (a b : Param) : Bool :=
  pathNameLess a.path a.name b.path b.name

/-- `a` may precede `b` in a list sorted by `paramLess` exactly when
`paramLess b a` is false. -/
def paramLE (a b : Param) : Prop := paramLess b a = false

instance : DecidableRel paramLE :=
  fun a b => inferInstanceAs (Decidable (paramLess b a = false))

/-- `sortParams` (`src/mcfg/mcfg.go:21-40`): `sort.Slice` with the `less`
comparator above.  Go's `sort.Slice` is an arbitrary comparator-correct
(unstable) sort. It is modelled as insertion sort, which produces a
permutation of the input pairwise ordered by `paramLE` — the property every
comparator-correct sort guarantees.  (The relative order of entries with
equal `(path, name)` keys is unspecified in Go and unused by every proved
statement.) -/
def sortParams (params : List Param) : List Param :=
  List.insertionSort paramLE params

/-- Modelled from the spec: a scope-tree node (`mctx.Context`) carrying its
locally declared Params (`getLocalParams`, whose body is not under `src/`)
and its child scopes (`mctx.Children`); only the structure that
`collectParams` walks is modelled. -/
inductive CtxTree where
  | node (localParams : List Param) (children : List CtxTree)

mutual

/-- The recursive `visit` of `collectParams` (`src/mcfg/mcfg.go:45-62`):
append the node's local Params, then recurse into each child.  (Go iterates
the children map in a nondeterministic order; the model fixes the
child-list order, and no proved statement depends on it.) -/
def visitParams : CtxTree → List Param
  | .node ps cs => ps ++ visitParamsList cs

/-- `visitParams` over a list of children. -/
def visitParamsList : List CtxTree → List Param
  | [] => []
  | c :: cs => visitParams c ++ visitParamsList cs

end

/-- `collectParams` (`src/mcfg/mcfg.go:45-62`): gather all Params
recursively, then sort them with `sortParams`. -/
def collectParams (t : CtxTree) : List Param :=
  sortParams (visitParams t)

/-- First-differing-segment comparison, in the claim's vocabulary: the two
paths share a common prefix and then differ, `a`'s segment being the
smaller. -/
def firstSegLt (p q : List String) : Prop :=
  ∃ pre x xs y ys, p = pre ++ x :: xs ∧ q = pre ++ y :: ys ∧ x < y

/-- The ordering `sortParams` actually establishes, in the claim's
vocabulary: entries with equal paths are ordered by name; a path that
strictly extends the other (the child) comes first; otherwise the first
differing segment decides lexicographically. -/
def claimOrder (a b : Param) : Prop :=
  (a.path = b.path ∧ a.name ≤ b.name) ∨
  (b.path <+: a.path ∧ b.path ≠ a.path) ∨
  firstSegLt a.path b.path

/-- `strings.HasPrefix`, modelled on character lists (Go compares bytes;
Lean compares the characters of `String.data`, which agrees on ASCII). -/
def strHasPre (s pre : String) : Bool :=
  pre.data.isPrefixOf s.data

/-- `strings.TrimPrefix`: drop the leading occurrence of `pre` when present,
otherwise return the string unchanged. -/
def strTrimPre (s pre : String) : String :=
  if strHasPre s pre then ⟨s.data.drop pre.data.length⟩ else s

/-- `strings.Join`: the elements joined with the separator between each
adjacent pair. -/
def goJoin (sep : String) : List String → String
  | [] => ""
  | [x] => x
  | x :: y :: rest => x ++ sep ++ goJoin sep (y :: rest)

/-- The CLI flag key of a Param (`src/mcfg/cli.go:126-133`):
`cliKeyPrefix + strings.Join(append(p.Path, p.Name), cliKeyJoin)`, with
`cliKeyPrefix = "--"` and `cliKeyJoin = "-"`. -/
def cliKey (p : Param) : String :=
  "--" ++ goJoin "-" (p.path ++ [p.name])

/-- String-keyed insert-or-replace, the model of the Go map write in
`cliParams`. -/
def cliInsert (k : String) (p : Param) :
    List (String × Param) → List (String × Param)
  | [] => [(k, p)]
  | (k', p') :: rest =>
    if k' = k then (k, p) :: rest else (k', p') :: cliInsert k p rest

/-- `cliParams` (`src/mcfg/cli.go:126-133`): the map from flag key to
Param, one entry inserted per declared Param. -/
def cliParams (params : List Param) : List (String × Param) :=
  params.foldl (fun m p => cliInsert (cliKey p) p m) []

/-- Whether an argument token matches one flag entry, exactly as one
iteration of the matching loop checks (`src/mcfg/cli.go:75-89`): an exact
match of the key, or a prefix match of `key ++ "="` (`cliValSep = "="`). -/
def argMatch (arg : String) (e : String × Param) : Bool :=
  decide (arg = e.1) || strHasPre arg (e.1 ++ "=")

/-- The outcome of `SourceCLI.Parse`: the help page plus `os.Exit(1)` on
`-h`, a `merr` error carrying the message and the offending token
(`merr.WithValue(err, "param", …)`), or the parsed ParamValue list. -/
inductive CliOut where
  | helpExit
  | err (msg : String) (param : String)
  | ok (pvs : List ParamValue)

/-- The tokenizing loop of `SourceCLI.Parse` (`src/mcfg/cli.go:58-123`),
translated state for state: `pending = some (key, p)` models
`pvOk && !pvStrValOk` — a non-boolean flag was seen bare and awaits its
value in the next token; `acc` holds the ParamValues appended so far.  Each
token is first consumed as a pending flag's value; otherwise `-h` (when
help is not disabled) prints the help page and exits the process; otherwise
the flag map is scanned for an exact or `key=`-prefixed match — no match is
an "unexpected config parameter" error; a `=`-match emits the attached
suffix through `fuzzyParse`; a bare boolean flag immediately emits
`fuzzyParse "true"`; a bare non-boolean flag becomes pending.  A pending
flag left when the input ends is a "param expected a value" error naming
the flag.  (Go scans the map in a nondeterministic order; the model scans
the association list in order and is quantified over the order where that
matters.) -/
def parseArgs (disableHelp : Bool) (pM : List (String × Param)) :
    List String → Option (String × Param) → List ParamValue → CliOut
  | [], pending, acc =>
    match pending with
    | some (key, _) => .err "param expected a value" key
    | none => .ok acc
  | arg :: rest, pending, acc =>
    match pending with
    | some (_, p) =>
      parseArgs disableHelp pM rest none (acc ++ [⟨p, p.fuzzyParse arg⟩])
    | none =>
      if disableHelp = false ∧ arg = "-h" then .helpExit
      else
        match pM.find? (argMatch arg) with
        | none => .err "unexpected config parameter" arg
        | some (key, p) =>
          if arg = key then
            if p.isBool then
              parseArgs disableHelp pM rest none
                (acc ++ [⟨p, p.fuzzyParse "true"⟩])
            else
              parseArgs disableHelp pM rest (some (key, p)) acc
          else
            parseArgs disableHelp pM rest none
              (acc ++ [⟨p, p.fuzzyParse (strTrimPre arg (key ++ "="))⟩])

/-- `SourceCLI.Parse` (`src/mcfg/cli.go:48-124`) on an explicit argument
list: build the flag map, then run the tokenizer. -/
def sourceCLIParse (disableHelp : Bool) (args : List String)
    (params : List Param) : CliOut :=
  parseArgs disableHelp (cliParams params) args none []

/-- A boolean root-level Param, used as a concrete CLI fixture. -/
def pBool : Param := ⟨[], "b", false, true, 5, fun s => s⟩

/-- A non-boolean Param under path `foo`, used as a concrete CLI fixture. -/
def pFooBar : Param := ⟨["foo"], "bar", false, false, 6, fun s => s⟩

/-- A root-level Param whose path is a strict prefix of `pChild`'s path. -/
def pParent : Param := ⟨[], "a", false, false, 3, fun s => s⟩

/-- A Param on the child scope `b`. -/
def pChild : Param := ⟨["b"], "a", false, false, 4, fun s => s⟩

/-- A two-level scope tree declaring `pParent` at the root and `pChild` on
the child scope. -/
def exTree : CtxTree := .node [pParent] [.node [pChild] []]

/-- A required root-level parameter, used as a concrete test fixture. -/
def pReq : Param := ⟨[], "n", true, false, 0, fun s => s⟩

/-- An optional parameter under path `a`, used as a concrete test fixture. -/
def pOpt : Param := ⟨["a"], "m", false, false, 1, fun s => s⟩

/-- A second declaration of `(path=[], name="n")` with a different target,
used to exhibit the duplicate-Param panic. -/
def pDup : Param := ⟨[], "n", true, false, 2, fun s => s⟩

/-- A Source producing no ParamValues. -/
def srcEmpty : Source := ⟨fun _ => .ok []⟩

/-- An initial target state. -/
def st0 : TState := fun _ => ""

/-- Two ParamValues targeting `pOpt`, used as concrete fixtures. -/
def pvOpt1 : ParamValue := ⟨pOpt, "1"⟩

/-- A second ParamValue targeting `pOpt` with a different raw value. -/
def pvOpt2 : ParamValue := ⟨pOpt, "2"⟩

end Mcfg

namespace Mctx

/-- Modelled from the spec: the `mctx` mutable node store (the body of
`mctx.GetSetMutableValue` is not under `src/`; only its test
`src/mctx/ctx_test.go` is).  The store is a lock-protected dynamically-typed
cell per node; the tests exercise a single key (`0`) with integer values, so
the cell is modelled as `Option Int` (`none` = nothing stored).  The spec's
description of the second boolean argument as "forceReset" (transform
receives nil when the flag is set) is contradicted by the repository's own
test: `TestMutableValues` (`src/mctx/ctx_test.go:108`) asserts that a call
with the flag set on a node whose stored value is `1` returns `1`, not
`transform(nil) = 0`.  The flag therefore means "when a value is already
stored, return it without calling the transform" (no-callback-if-set),
which is what is modelled here.  The function returns the pair (returned
value, new stored state). -/
def GetSetMutableValue (noCallbackIfSet : Bool) (fn : Option Int → Int)
    (st : Option Int) : Int × Option Int :=
  if noCallbackIfSet then
    match st with
    | some v => (v, some v)
    | none => (fn none, some (fn none))
  else
    (fn st, some (fn st))

/-- The spec's literal reading of the same operation, kept for comparison
with the behaviour the test pins down: if the flag ("forceReset") is set
the transform receives nil regardless of the stored value, and its result
is stored and returned. -/
def GetSetMutableValueSpecReading (forceReset : Bool) (fn : Option Int → Int)
    (st : Option Int) : Int × Option Int :=
  let cur := if forceReset then none else st
  (fn cur, some (fn cur))

/-- The increment transform of `TestMutableValuesParallel`
(`src/mctx/ctx_test.go:124-129`). -/
def incr : Option Int → Int
  | none => 1
  | some v => v + 1

/-- The transform of `TestMutableValues` (`src/mctx/ctx_test.go:96-101`). -/
def testFn : Option Int → Int
  | none => 0
  | some v => v + 1

/-- A concurrent execution of increment operations against one node: since
every operation runs atomically under the node's lock (spec: "updates are
totally ordered per node via the lock; the get-or-set-transform operation
is atomic"), an execution is a schedule — a list of worker identities, one
entry per performed operation — applied sequentially.  The worker identity
does not influence the operation. -/
def runSched (sched : List Nat) (st : Option Int) : Option Int :=
  sched.foldl (fun st _ => (GetSetMutableValue false incr st).snd) st

end Mctx

namespace Mcfg

theorem alookup_eq_none {β : Type} (m : List ((List String × String) × β))
    (k : List String × String) : alookup m k = none ↔ k ∉ m.map Prod.fst := by
  induction m with
  | nil => simp [alookup]
  | cons e rest ih =>
    obtain ⟨k', v⟩ := e
    by_cases h : k' = k
    · subst h
      constructor
      · intro hnone
        simp only [alookup, if_pos rfl] at hnone
        cases hnone
      · intro hnotmem
        exact absurd (List.mem_cons_self _ (rest.map Prod.fst)) hnotmem
    · simp only [alookup, if_neg h, ih, List.map_cons, List.mem_cons]
      constructor
      · rintro hk (rfl | hmem)
        · exact h rfl
        · exact hk hmem
      · intro hk
        exact fun hmem => hk (Or.inr hmem)

theorem alookup_isSome_of_mem {β : Type} {m : List ((List String × String) × β)}
    {e : (List String × String) × β} (he : e ∈ m) : (alookup m e.1).isSome := by
  induction m with
  | nil => exact absurd he (List.not_mem_nil e)
  | cons e' rest ih =>
    obtain ⟨k', v⟩ := e'
    simp only [alookup]
    by_cases h : k' = e.1
    · rw [if_pos h]
      rfl
    · rw [if_neg h]
      rcases List.mem_cons.mp he with heq | hmem
      · exact absurd (congrArg Prod.fst heq).symm h
      · exact ih hmem

theorem alookup_map_some {params : List Param} {h : List String × String}
    {q : Param} (hq : alookup (params.map fun p => (p.key, p)) h = some q) :
    q ∈ params ∧ q.key = h := by
  induction params with
  | nil => simp [alookup] at hq
  | cons p rest ih =>
    simp only [List.map_cons, alookup] at hq
    by_cases hk : p.key = h
    · rw [if_pos hk] at hq
      obtain rfl := Option.some_inj.mp hq
      exact ⟨List.mem_cons_self _ _, hk⟩
    · rw [if_neg hk] at hq
      obtain ⟨hmem, hkey⟩ := ih hq
      exact ⟨List.mem_cons_of_mem _ hmem, hkey⟩

theorem insertPM_ok_eq {params : List Param}
    {m M : List ((List String × String) × Param)}
    (h : insertPM params m = .ok M) :
    M = m ++ params.map fun p => (p.key, p) := by
  induction params generalizing m with
  | nil =>
    simp only [insertPM] at h
    obtain rfl := Except.ok.inj h
    simp
  | cons p rest ih =>
    simp only [insertPM] at h
    by_cases hl : (alookup m p.key).isSome
    · rw [if_pos hl] at h
      cases h
    · rw [if_neg hl] at h
      rw [ih h]
      simp

theorem insertPM_ok_of_nodup {params : List Param}
    {m : List ((List String × String) × Param)}
    (h : (m.map Prod.fst ++ params.map Param.key).Nodup) :
    insertPM params m = .ok (m ++ params.map fun p => (p.key, p)) := by
  induction params generalizing m with
  | nil => simp [insertPM]
  | cons p rest ih =>
    have hnotmem : p.key ∉ m.map Prod.fst := by
      intro hmem
      have hdisj := (List.nodup_append.mp h).2.2
      exact hdisj hmem (by simp [Param.key])
    have hnone : alookup m p.key = none := (alookup_eq_none m p.key).mpr hnotmem
    simp only [insertPM, hnone, Option.isSome_none, Bool.false_eq_true,
      if_false]
    have hperm :
        ((m ++ [(p.key, p)]).map Prod.fst ++ rest.map Param.key) =
          (m.map Prod.fst ++ (p.key :: rest.map Param.key)) := by
      simp
    have h' : ((m ++ [(p.key, p)]).map Prod.fst ++ rest.map Param.key).Nodup := by
      rw [hperm]
      have := h
      simp only [List.map_cons, List.nodup_append] at this ⊢
      obtain ⟨h1, h2, h3⟩ := this
      exact ⟨h1, h2, h3⟩
    rw [ih h']
    simp

theorem insertPM_err_of_dup {params : List Param}
    {m : List ((List String × String) × Param)}
    (hdup : ¬ (m.map Prod.fst ++ params.map Param.key).Nodup)
    (hm : (m.map Prod.fst).Nodup) :
    ∃ p ∈ params,
      2 ≤ (m.map Prod.fst ++ params.map Param.key).count p.key ∧
      insertPM params m =
        .error ("duplicate Param: " ++ paramFullName p.path p.name) := by
  induction params generalizing m with
  | nil => simp at hdup; exact absurd hm hdup
  | cons p rest ih =>
    by_cases hl : (alookup m p.key).isSome
    · refine ⟨p, List.mem_cons_self _ _, ?_, ?_⟩
      · have hmem : p.key ∈ m.map Prod.fst := by
          by_contra hnot
          rw [(alookup_eq_none m p.key).mpr hnot] at hl
          simp at hl
        have h1 : 0 < (m.map Prod.fst).count p.key :=
          List.count_pos_iff.mpr hmem
        have h2 : 1 ≤ ((p :: rest).map Param.key).count p.key := by
          simp [List.count_cons]
        calc 2 ≤ (m.map Prod.fst).count p.key +
              ((p :: rest).map Param.key).count p.key := by omega
          _ = _ := (List.count_append _ _ _).symm
      · simp [insertPM, hl]
    · have hnone : alookup m p.key = none :=
        Option.not_isSome_iff_eq_none.mp hl
      have hnotmem : p.key ∉ m.map Prod.fst := (alookup_eq_none m p.key).mp hnone
      have hm' : ((m ++ [(p.key, p)]).map Prod.fst).Nodup := by
        simp only [List.map_append, List.map_cons, List.map_nil]
        refine List.Nodup.append hm (List.nodup_singleton _) ?_
        intro a ha hb
        rw [List.mem_singleton] at hb
        subst hb
        exact hnotmem ha
      have heq : ((m ++ [(p.key, p)]).map Prod.fst ++ rest.map Param.key) =
          (m.map Prod.fst ++ (p :: rest).map Param.key) := by simp [Param.key]
      have hdup' : ¬ ((m ++ [(p.key, p)]).map Prod.fst ++ rest.map Param.key).Nodup := by
        rw [heq]; exact hdup
      obtain ⟨q, hq, hcount, herr⟩ := ih hdup' hm'
      refine ⟨q, List.mem_cons_of_mem _ hq, ?_, ?_⟩
      · calc 2 ≤ ((m ++ [(p.key, p)]).map Prod.fst ++ rest.map Param.key).count q.key :=
            hcount
          _ = (m.map Prod.fst ++ (p :: rest).map Param.key).count q.key := by
            rw [heq]
      · simpa [insertPM, hnone] using herr

theorem alookup_ainsert_self {β : Type} (m : List ((List String × String) × β))
    (k : List String × String) (v : β) : alookup (ainsert k v m) k = some v := by
  induction m with
  | nil => simp [ainsert, alookup]
  | cons e rest ih =>
    obtain ⟨k', v'⟩ := e
    by_cases h : k' = k
    · simp [ainsert, h, alookup]
    · simp [ainsert, h, alookup, ih]

theorem alookup_ainsert_ne {β : Type} (m : List ((List String × String) × β))
    {k h : List String × String} (v : β) (hne : h ≠ k) :
    alookup (ainsert k v m) h = alookup m h := by
  induction m with
  | nil =>
    have hne' : ¬ (k = h) := fun he => hne he.symm
    simp only [ainsert, alookup, if_neg hne']
  | cons e rest ih =>
    obtain ⟨k', v'⟩ := e
    by_cases hk : k' = k
    · have hne1 : ¬ (k = h) := fun he => hne he.symm
      have hne2 : ¬ (k' = h) := fun he => hne (hk.symm.trans he).symm
      simp only [ainsert, if_pos hk, alookup, if_neg hne1, if_neg hne2]
    · simp only [ainsert, if_neg hk, alookup]
      by_cases hk' : k' = h
      · simp [hk']
      · simp [hk', ih]

theorem mem_ainsert {β : Type} {m : List ((List String × String) × β)}
    {k : List String × String} {v : β} {e : (List String × String) × β}
    (he : e ∈ ainsert k v m) : e = (k, v) ∨ e ∈ m := by
  induction m with
  | nil => simpa [ainsert] using he
  | cons e' rest ih =>
    obtain ⟨k', v'⟩ := e'
    by_cases h : k' = k
    · simp only [ainsert, if_pos h] at he
      rcases List.mem_cons.mp he with rfl | hmem
      · exact Or.inl rfl
      · exact Or.inr (List.mem_cons_of_mem _ hmem)
    · simp only [ainsert, if_neg h] at he
      rcases List.mem_cons.mp he with rfl | hmem
      · exact Or.inr (List.mem_cons_self _ _)
      · rcases ih hmem with h1 | h1
        · exact Or.inl h1
        · exact Or.inr (List.mem_cons_of_mem _ h1)

/-- Every entry of `buildPvM` came from the parsed list and has a declared
Param: the filtering step of `src/mcfg/mcfg.go:100-106`. -/
theorem mem_buildPvM {pM : List ((List String × String) × Param)}
    {pvs : List ParamValue} {e : (List String × String) × ParamValue}
    (he : e ∈ buildPvM pM pvs) :
    (alookup pM e.1).isSome ∧ e.2 ∈ pvs ∧ e.1 = e.2.key := by
  suffices h : ∀ (m : List ((List String × String) × ParamValue)),
      e ∈ pvs.foldl
        (fun m pv => if (alookup pM pv.key).isSome then ainsert pv.key pv m else m)
        m →
      ((alookup pM e.1).isSome ∧ e.2 ∈ pvs ∧ e.1 = e.2.key) ∨ e ∈ m by
    rcases h [] he with h1 | h1
    · exact h1
    · exact absurd h1 (List.not_mem_nil e)
  clear he
  induction pvs with
  | nil => intro m hm; exact Or.inr hm
  | cons pv rest ih =>
    intro m hm
    simp only [List.foldl_cons] at hm
    rcases ih _ hm with h1 | h1
    · exact Or.inl ⟨h1.1, List.mem_cons_of_mem _ h1.2.1, h1.2.2⟩
    · by_cases hs : (alookup pM pv.key).isSome
      · rw [if_pos hs] at h1
        rcases mem_ainsert h1 with rfl | h2
        · exact Or.inl ⟨hs, List.mem_cons_self _ _, rfl⟩
        · exact Or.inr h2
      · rw [if_neg hs] at h1
        exact Or.inr h1

theorem getLast?_elim_some {α : Type} (a : α) (l : List α) (d : Option α) :
    ((a :: l).getLast?).elim d some = (a :: l).getLast? := by
  induction l generalizing a with
  | nil => rfl
  | cons b l ih => rw [List.getLast?_cons_cons]; exact ih b

/-- The dedup-and-filter characterization of `buildPvM`
(`src/mcfg/mcfg.go:97-106`): a hash with no declared Param never survives,
and for a declared hash the surviving ParamValue is the last parsed one with
that hash. -/
theorem buildPvM_alookup (pM : List ((List String × String) × Param))
    (pvs : List ParamValue) (h : List String × String) :
    alookup (buildPvM pM pvs) h =
      if (alookup pM h).isSome then
        (pvs.filter fun pv => decide (pv.key = h)).getLast?
      else none := by
  suffices hgen : ∀ (m : List ((List String × String) × ParamValue)),
      alookup
        (pvs.foldl
          (fun m pv => if (alookup pM pv.key).isSome then ainsert pv.key pv m else m)
          m) h =
        if (alookup pM h).isSome then
          ((pvs.filter fun pv => decide (pv.key = h)).getLast?).elim (alookup m h) some
        else alookup m h by
    rw [buildPvM, hgen []]
    by_cases hs : (alookup pM h).isSome
    · rw [if_pos hs, if_pos hs]
      cases (pvs.filter fun pv => decide (pv.key = h)).getLast? with
      | none => simp [alookup]
      | some pv => simp
    · rw [if_neg hs, if_neg hs]
      simp [alookup]
  have hstep : ∀ (m : List ((List String × String) × ParamValue)) (pv : ParamValue),
      pv.key ≠ h →
      alookup (if (alookup pM pv.key).isSome then ainsert pv.key pv m else m) h =
        alookup m h := by
    intro m pv hne
    by_cases hc : (alookup pM pv.key).isSome
    · rw [if_pos hc]
      exact alookup_ainsert_ne m pv (fun he => hne he.symm)
    · rw [if_neg hc]
  induction pvs with
  | nil => intro m; by_cases hs : (alookup pM h).isSome <;> simp [hs]
  | cons pv rest ih =>
    intro m
    simp only [List.foldl_cons]
    rw [ih _]
    by_cases hs : (alookup pM h).isSome
    · rw [if_pos hs, if_pos hs]
      by_cases hk : pv.key = h
      · subst hk
        have hfilter : ((pv :: rest).filter fun q => decide (q.key = pv.key)) =
            pv :: (rest.filter fun q => decide (q.key = pv.key)) := by
          simp [List.filter_cons]
        rw [hfilter]
        have hlook : alookup
            (if (alookup pM pv.key).isSome then ainsert pv.key pv m else m) pv.key =
            some pv := by
          rw [if_pos hs]
          exact alookup_ainsert_self m pv.key pv
        cases hfr : (rest.filter fun q => decide (q.key = pv.key)) with
        | nil => simp [hlook]
        | cons a l =>
          rw [List.getLast?_cons_cons, getLast?_elim_some, getLast?_elim_some]
      · have hfilter : ((pv :: rest).filter fun q => decide (q.key = h)) =
            (rest.filter fun q => decide (q.key = h)) := by
          simp [List.filter_cons, hk]
        rw [hfilter, hstep m pv hk]
    · rw [if_neg hs, if_neg hs]
      by_cases hpv : (alookup pM pv.key).isSome
      · have hk : pv.key ≠ h := by
          intro he
          rw [he] at hpv
          exact hs hpv
        exact hstep m pv hk
      · rw [if_neg hpv]

/-- `writeAll` leaves every cell that is not the target of a matched
surviving ParamValue untouched. -/
theorem writeAll_frame {decode : String → Option String}
    {pM : List ((List String × String) × Param)}
    {pvM : List ((List String × String) × ParamValue)} {st st' : TState}
    (h : writeAll decode pM pvM st = .ok st') (x : Nat)
    (hx : ∀ e ∈ pvM, ∀ p, alookup pM e.1 = some p → p.into ≠ x) :
    st' x = st x := by
  induction pvM generalizing st with
  | nil =>
    simp only [writeAll] at h
    obtain rfl := Except.ok.inj h
    rfl
  | cons e rest ih =>
    obtain ⟨hk, pv⟩ := e
    simp only [writeAll] at h
    cases hpm : alookup pM hk with
    | none =>
      rw [hpm] at h
      exact ih h (fun e he => hx e (List.mem_cons_of_mem _ he))
    | some p =>
      rw [hpm] at h
      cases hdec : decode pv.value with
      | none => rw [hdec] at h; cases h
      | some v =>
        rw [hdec] at h
        have hst := ih h (fun e he => hx e (List.mem_cons_of_mem _ he))
        rw [hst]
        have hne : p.into ≠ x := hx (hk, pv) (List.mem_cons_self _ _) p hpm
        exact Function.update_noteq (fun he => hne he.symm) _ _

theorem buildPM_ok_eq {params : List Param}
    {pM : List ((List String × String) × Param)}
    (h : buildPM params = .ok pM) : pM = params.map fun p => (p.key, p) := by
  simpa using insertPM_ok_eq h

/-- Reduction of `populate` past a successful `pM` build and Source parse. -/
theorem populate_eq_of_ok (decode : String → Option String) {params : List Param}
    {pM : List ((List String × String) × Param)} {src : Source}
    {pvs : List ParamValue} (st : TState)
    (hpm : buildPM params = .ok pM) (hparse : src.parse params = .ok pvs) :
    populate decode params (some src) st =
      match findMissingRequired pM (buildPvM pM pvs) with
      | some p => .failed (.requiredNotSet (paramFullName p.path p.name)) st
      | none =>
        match writeAll decode pM (buildPvM pM pvs) st with
        | .error (v, st') => .failed (.unmarshalFailed v) st'
        | .ok st' => .success st' := by
  simp only [populate, hpm, Option.getD_some, hparse]

theorem findMissingRequired_eq_none {params : List Param}
    {pvM : List ((List String × String) × ParamValue)}
    (h : ∀ p ∈ params, p.required = true → (alookup pvM p.key).isSome) :
    findMissingRequired (params.map fun p => (p.key, p)) pvM = none := by
  rw [findMissingRequired, List.find?_eq_none.mpr, Option.map_none']
  intro e he
  obtain ⟨p, hp, rfl⟩ := List.mem_map.mp he
  simp only [Bool.and_eq_true, Bool.not_eq_true]
  intro ⟨hreq, hnone⟩
  have := h p hp hreq
  rw [Option.isNone_iff_eq_none.mp hnone] at this
  cases this

theorem findMissingRequired_eq_some {params : List Param}
    {pvM : List ((List String × String) × ParamValue)}
    (h : ∃ p ∈ params, p.required = true ∧ alookup pvM p.key = none) :
    ∃ q ∈ params, q.required = true ∧ alookup pvM q.key = none ∧
      findMissingRequired (params.map fun p => (p.key, p)) pvM = some q := by
  obtain ⟨p, hp, hreq, hnone⟩ := h
  have hsome : ((params.map fun p => (p.key, p)).find?
      (fun e => e.2.required && (alookup pvM e.1).isNone)).isSome := by
    rw [List.find?_isSome]
    exact ⟨(p.key, p), List.mem_map_of_mem _ hp, by simp [hreq, hnone]⟩
  obtain ⟨e, he⟩ := Option.isSome_iff_exists.mp hsome
  have hpred := List.find?_some he
  obtain ⟨q, hq, rfl⟩ := List.mem_map.mp (List.mem_of_find?_eq_some he)
  simp only [Bool.and_eq_true, Option.isNone_iff_eq_none] at hpred
  exact ⟨q, hq, hpred.1, hpred.2, by rw [findMissingRequired, he, Option.map_some']⟩

/-- **C1.** After deduplication and filtering of the Source's ParamValues, if
some declared Param with `Required = true` has no surviving ParamValue then
`populate` fails with a "required parameter is not set" error carrying the
fully-qualified `path/name` of such a Param, and the failure leaves the
target state exactly as it was (no coerced value has been written);
conversely, if every required Param has a surviving ParamValue, no such
error is produced (`src/mcfg/mcfg.go:108-117,119-126`). -/
theorem populate_required_error_iff (decode : String → Option String)
    (params : List Param) (pM : List ((List String × String) × Param))
    (src : Source) (pvs : List ParamValue) (st : TState)
    (hpm : buildPM params = .ok pM) (hparse : src.parse params = .ok pvs) :
    ((∃ p ∈ params, p.required = true ∧ alookup (buildPvM pM pvs) p.key = none) →
      ∃ p ∈ params, p.required = true ∧ alookup (buildPvM pM pvs) p.key = none ∧
        populate decode params (some src) st =
          .failed (.requiredNotSet (paramFullName p.path p.name)) st) ∧
    ((∀ p ∈ params, p.required = true → (alookup (buildPvM pM pvs) p.key).isSome) →
      ∀ nm st', populate decode params (some src) st ≠
        .failed (.requiredNotSet nm) st') := by
  have hpMeq := buildPM_ok_eq hpm
  constructor
  · intro hex
    obtain ⟨q, hq, hreq, hnone, hfind⟩ :=
      @findMissingRequired_eq_some params (buildPvM pM pvs) hex
    rw [← hpMeq] at hfind
    refine ⟨q, hq, hreq, hnone, ?_⟩
    rw [populate_eq_of_ok decode st hpm hparse, hfind]
  · intro hall nm st' heq
    have hfind : findMissingRequired pM (buildPvM pM pvs) = none := by
      nth_rewrite 1 [hpMeq]
      exact findMissingRequired_eq_none hall
    rw [populate_eq_of_ok decode st hpm hparse, hfind] at heq
    cases hw : writeAll decode pM (buildPvM pM pvs) st with
    | error e =>
      obtain ⟨v, st''⟩ := e
      rw [hw] at heq
      simp only at heq
      obtain ⟨herr, -⟩ := POut.failed.inj heq
      cases herr
    | ok st'' =>
      rw [hw] at heq
      cases heq

theorem populate_required_error_iff_witness :
    populate some [pReq] (some srcEmpty) st0 =
      .failed (.requiredNotSet (paramFullName [] "n")) st0 := by
  obtain ⟨p, hp, -, -, heq⟩ :=
    (populate_required_error_iff some [pReq] [(pReq.key, pReq)] srcEmpty [] st0
      rfl rfl).1 ⟨pReq, List.mem_singleton.mpr rfl, rfl, rfl⟩
  rw [List.mem_singleton] at hp
  subst hp
  exact heq

/-- **C4.** `populate` deduplicates the Source's ParamValues by the hash of
`(path, name)` with the last occurrence winning, silently drops every
ParamValue whose hash matches no declared Param, and, on success, writes
only into the targets of Params matched by a surviving ParamValue
(`src/mcfg/mcfg.go:97-106,119-126`). -/
theorem populate_dedup_filter (params : List Param)
    (pM : List ((List String × String) × Param)) (pvs : List ParamValue)
    (h : List String × String) (hpm : buildPM params = .ok pM) :
    (alookup pM h = none → alookup (buildPvM pM pvs) h = none) ∧
    ((alookup pM h).isSome →
      alookup (buildPvM pM pvs) h =
        (pvs.filter fun pv => decide (pv.key = h)).getLast?) ∧
    (∀ (decode : String → Option String) (src : Source) (st st' : TState),
      src.parse params = .ok pvs →
      populate decode params (some src) st = .success st' →
      ∀ x : Nat, (∀ e ∈ buildPvM pM pvs, ∀ p, alookup pM e.1 = some p → p.into ≠ x) →
        st' x = st x) := by
  refine ⟨?_, ?_, ?_⟩
  · intro hnone
    rw [buildPvM_alookup, hnone]
    simp
  · intro hsome
    rw [buildPvM_alookup, if_pos hsome]
  · intro decode src st st' hparse hsucc x hx
    rw [populate_eq_of_ok decode st hpm hparse] at hsucc
    cases hfind : findMissingRequired pM (buildPvM pM pvs) with
    | some q => rw [hfind] at hsucc; cases hsucc
    | none =>
      rw [hfind] at hsucc
      cases hw : writeAll decode pM (buildPvM pM pvs) st with
      | error e =>
        obtain ⟨v, st''⟩ := e
        rw [hw] at hsucc
        cases hsucc
      | ok st'' =>
        rw [hw] at hsucc
        obtain rfl := POut.success.inj hsucc
        exact writeAll_frame hw x hx

theorem populate_dedup_filter_witness :
    alookup (buildPvM [(pOpt.key, pOpt)] [pvOpt1, pvOpt2]) pOpt.key =
      ([pvOpt1, pvOpt2].filter fun pv => decide (pv.key = pOpt.key)).getLast? :=
  (populate_dedup_filter [pOpt] [(pOpt.key, pOpt)] [pvOpt1, pvOpt2] pOpt.key
    rfl).2.1 rfl

/-- **C5.** `populate` only writes into the targets of Params with a
surviving ParamValue: on success, a declared Param with no surviving
ParamValue keeps its previous target value (given the declared Params have
pairwise distinct targets, as the declaration helpers guarantee by
allocating a fresh target per Param); and with a nil Source, no target is
written and `populate` succeeds whenever no Param is required
(`src/mcfg/mcfg.go:75-78,119-126`). -/
theorem populate_nil_source_frame (decode : String → Option String)
    (params : List Param) (pM : List ((List String × String) × Param))
    (src : Source) (pvs : List ParamValue) (st st' : TState)
    (hpm : buildPM params = .ok pM) (hparse : src.parse params = .ok pvs) :
    ((params.map Param.into).Nodup →
      populate decode params (some src) st = .success st' →
      ∀ p ∈ params, alookup (buildPvM pM pvs) p.key = none →
        st' p.into = st p.into) ∧
    ((∀ p ∈ params, p.required = false) →
      populate decode params none st = .success st) := by
  have hpMeq := buildPM_ok_eq hpm
  constructor
  · intro hintos hsucc p hp hnone
    refine (populate_dedup_filter params pM pvs p.key hpm).2.2 decode src st st'
      hparse hsucc p.into ?_
    intro e he q hq hinto
    obtain ⟨hq_mem, hq_key⟩ := alookup_map_some (hpMeq ▸ hq)
    have hqp : q = p := List.inj_on_of_nodup_map hintos hq_mem hp hinto
    subst hqp
    have hkey : e.1 = q.key := hq_key.symm
    have := alookup_isSome_of_mem he
    rw [hkey, hnone] at this
    cases this
  · intro hreq
    have hparse0 : (paramValuesSource []).parse params = .ok [] := rfl
    simp only [populate, hpm, Option.getD_none, hparse0]
    have hfind : findMissingRequired pM (buildPvM pM []) = none := by
      nth_rewrite 1 [hpMeq]
      refine findMissingRequired_eq_none ?_
      intro p hp hcontra
      rw [hreq p hp] at hcontra
      cases hcontra
    rw [hfind]
    rfl

theorem populate_nil_source_frame_witness :
    populate some [pOpt] none st0 = .success st0 :=
  (populate_nil_source_frame some [pOpt] [(pOpt.key, pOpt)] srcEmpty [] st0 st0
    rfl rfl).2 (by intro p hp; rw [List.mem_singleton] at hp; subst hp; rfl)

/-- **C6.** If the declared Param list contains two entries with identical
`(path, name)` then `populate` panics — a fatal, process-halting programmer
error — with a message naming the duplicated full name, rather than
returning an error value; if all `(path, name)` pairs are distinct, the
panic is unreachable (`src/mcfg/mcfg.go:82-90`). -/
theorem populate_duplicate_panic (decode : String → Option String)
    (params : List Param) (src : Option Source) (st : TState) :
    (¬ (params.map Param.key).Nodup →
      ∃ p ∈ params, 2 ≤ (params.map Param.key).count p.key ∧
        populate decode params src st =
          .panicked ("duplicate Param: " ++ paramFullName p.path p.name)) ∧
    ((params.map Param.key).Nodup →
      ∀ msg, populate decode params src st ≠ .panicked msg) := by
  constructor
  · intro hdup
    have hdup' : ¬ (([] : List ((List String × String) × Param)).map Prod.fst ++
        params.map Param.key).Nodup := by simpa using hdup
    obtain ⟨p, hp, hcount, herr⟩ := insertPM_err_of_dup hdup' (by simp)
    refine ⟨p, hp, by simpa using hcount, ?_⟩
    have hbuild : buildPM params =
        .error ("duplicate Param: " ++ paramFullName p.path p.name) := herr
    simp only [populate, hbuild]
  · intro hnodup msg heq
    have hok : buildPM params = .ok (params.map fun p => (p.key, p)) := by
      have hins := @insertPM_ok_of_nodup params
        ([] : List ((List String × String) × Param)) (by simpa using hnodup)
      simpa [buildPM] using hins
    rw [populate] at heq
    rw [hok] at heq
    cases hparse : (src.getD (paramValuesSource [])).parse params with
    | error e => rw [hparse] at heq; cases heq
    | ok pvs =>
      rw [hparse] at heq
      simp only at heq
      cases hfind : findMissingRequired (params.map fun p => (p.key, p))
          (buildPvM (params.map fun p => (p.key, p)) pvs) with
      | some q => rw [hfind] at heq; cases heq
      | none =>
        rw [hfind] at heq
        cases hw : writeAll decode (params.map fun p => (p.key, p))
            (buildPvM (params.map fun p => (p.key, p)) pvs) st with
        | error e =>
          obtain ⟨v, st''⟩ := e
          rw [hw] at heq
          cases heq
        | ok st'' =>
          rw [hw] at heq
          cases heq

theorem populate_duplicate_panic_witness :
    populate some [pReq, pDup] none st0 =
      .panicked ("duplicate Param: " ++ paramFullName [] "n") := by
  obtain ⟨p, hp, -, heq⟩ :=
    (populate_duplicate_panic some [pReq, pDup] none st0).1 (by decide)
  rcases List.mem_cons.mp hp with rfl | hp'
  · exact heq
  · rcases List.mem_cons.mp hp' with rfl | hp''
    · exact heq
    · exact absurd hp'' (List.not_mem_nil _)


theorem pathNameLess_asymm (as : List String) (an : String) :
    ∀ (bs : List String) (bn : String), pathNameLess as an bs bn = true →
      pathNameLess bs bn as an = false := by
  induction as with
  | nil =>
    intro bs bn h
    cases bs with
    | nil =>
      simp only [pathNameLess, decide_eq_true_eq] at h
      simp only [pathNameLess, decide_eq_false_iff_not]
      exact lt_asymm h
    | cons b bs' => simp [pathNameLess] at h
  | cons a as' ih =>
    intro bs bn h
    cases bs with
    | nil => simp [pathNameLess]
    | cons b bs' =>
      simp only [pathNameLess] at h ⊢
      by_cases hab : a = b
      · subst hab
        rw [if_neg (fun hc : a ≠ a => hc rfl)] at h ⊢
        exact ih bs' bn h
      · rw [if_pos hab] at h
        rw [if_pos (fun hc : b = a => hab hc.symm)]
        simp only [decide_eq_true_eq] at h
        simp only [decide_eq_false_iff_not]
        exact lt_asymm h

theorem pathNameLess_trichotomy (as : List String) (an : String) :
    ∀ (bs : List String) (bn : String),
      pathNameLess as an bs bn = true ∨ pathNameLess bs bn as an = true ∨
        (as = bs ∧ an = bn) := by
  induction as with
  | nil =>
    intro bs bn
    cases bs with
    | nil =>
      rcases lt_trichotomy an bn with h | h | h
      · exact .inl (by simp [pathNameLess, h])
      · exact .inr (.inr ⟨rfl, h⟩)
      · exact .inr (.inl (by simp [pathNameLess, h]))
    | cons b bs' => exact .inr (.inl (by simp [pathNameLess]))
  | cons a as' ih =>
    intro bs bn
    cases bs with
    | nil => exact .inl (by simp [pathNameLess])
    | cons b bs' =>
      by_cases hab : a = b
      · subst hab
        rcases ih bs' bn with h | h | ⟨h1, h2⟩
        · refine .inl ?_
          simp only [pathNameLess]
          rw [if_neg (fun hc : a ≠ a => hc rfl)]
          exact h
        · refine .inr (.inl ?_)
          simp only [pathNameLess]
          rw [if_neg (fun hc : a ≠ a => hc rfl)]
          exact h
        · exact .inr (.inr ⟨by rw [h1], h2⟩)
      · rcases lt_trichotomy a b with h | h | h
        · refine .inl ?_
          simp only [pathNameLess]
          rw [if_pos hab]
          simpa using h
        · exact absurd h hab
        · refine .inr (.inl ?_)
          simp only [pathNameLess]
          rw [if_pos (fun hc : b = a => hab hc.symm)]
          simpa using h

theorem pathNameLess_trans (as : List String) (an : String) :
    ∀ (bs : List String) (bn : String) (cs : List String) (cn : String),
      pathNameLess as an bs bn = true → pathNameLess bs bn cs cn = true →
      pathNameLess as an cs cn = true := by
  induction as with
  | nil =>
    intro bs bn cs cn h1 h2
    cases bs with
    | nil =>
      cases cs with
      | nil =>
        simp only [pathNameLess, decide_eq_true_eq] at h1 h2 ⊢
        exact lt_trans h1 h2
      | cons c cs' => simp [pathNameLess] at h2
    | cons b bs' => simp [pathNameLess] at h1
  | cons a as' ih =>
    intro bs bn cs cn h1 h2
    cases cs with
    | nil => simp [pathNameLess]
    | cons c cs' =>
      cases bs with
      | nil => simp [pathNameLess] at h2
      | cons b bs' =>
        simp only [pathNameLess] at h1 h2 ⊢
        by_cases hab : a = b <;> by_cases hbc : b = c
        · subst hab; subst hbc
          rw [if_neg (fun hc : a ≠ a => hc rfl)] at h1 h2 ⊢
          exact ih bs' bn cs' cn h1 h2
        · subst hab
          rw [if_neg (fun hc : a ≠ a => hc rfl)] at h1
          rw [if_pos hbc] at h2
          rw [if_pos hbc]
          exact h2
        · subst hbc
          rw [if_pos hab] at h1
          rw [if_neg (fun hc : b ≠ b => hc rfl)] at h2
          rw [if_pos hab]
          exact h1
        · rw [if_pos hab] at h1
          rw [if_pos hbc] at h2
          simp only [decide_eq_true_eq] at h1 h2
          have hac : a < c := lt_trans h1 h2
          rw [if_pos (fun hc : a = c => absurd (hc ▸ h1) (lt_asymm h2))]
          simpa using hac

theorem pathNameLess_char (as : List String) (an : String) :
    ∀ (bs : List String) (bn : String), pathNameLess as an bs bn = true →
      (bs <+: as ∧ bs ≠ as) ∨ firstSegLt as bs ∨ (as = bs ∧ an < bn) := by
  induction as with
  | nil =>
    intro bs bn h
    cases bs with
    | nil =>
      simp only [pathNameLess, decide_eq_true_eq] at h
      exact .inr (.inr ⟨rfl, h⟩)
    | cons b bs' => simp [pathNameLess] at h
  | cons a as' ih =>
    intro bs bn h
    cases bs with
    | nil =>
      exact .inl ⟨⟨a :: as', rfl⟩, fun hc => List.noConfusion hc.symm⟩
    | cons b bs' =>
      simp only [pathNameLess] at h
      by_cases hab : a = b
      · subst hab
        rw [if_neg (fun hc : a ≠ a => hc rfl)] at h
        rcases ih bs' bn h with ⟨hpre, hne⟩ | ⟨pre, x, xs, y, ys, hx, hy, hlt⟩ |
            ⟨heq, hlt⟩
        · refine .inl ⟨List.cons_prefix_cons.mpr ⟨rfl, hpre⟩, ?_⟩
          intro hc
          exact hne (List.cons.inj hc).2
        · exact .inr (.inl ⟨a :: pre, x, xs, y, ys, by rw [hx]; rfl,
            by rw [hy]; rfl, hlt⟩)
        · exact .inr (.inr ⟨by rw [heq], hlt⟩)
      · rw [if_pos hab] at h
        simp only [decide_eq_true_eq] at h
        exact .inr (.inl ⟨[], a, as', b, bs', rfl, rfl, h⟩)

theorem paramLE_total (a b : Param) : paramLE a b ∨ paramLE b a := by
  cases hf : paramLess b a with
  | false => exact .inl hf
  | true => exact .inr (pathNameLess_asymm _ _ _ _ hf)

theorem paramLE_trans (a b c : Param) (h1 : paramLE a b) (h2 : paramLE b c) :
    paramLE a c := by
  rw [paramLE] at h1 h2 ⊢
  by_contra hcontra
  have hca : paramLess c a = true := by
    cases hc : paramLess c a with
    | false => exact absurd hc hcontra
    | true => rfl
  rcases pathNameLess_trichotomy b.path b.name c.path c.name with hbc | hcb |
      ⟨hp, hn⟩
  · have hba : paramLess b a = true := pathNameLess_trans _ _ _ _ _ _ hbc hca
    rw [hba] at h1
    cases h1
  · rw [paramLess] at h2
    rw [hcb] at h2
    cases h2
  · rw [paramLess, ← hp, ← hn] at hca
    rw [paramLess] at h1
    rw [hca] at h1
    cases h1

theorem paramLE_claimOrder {a b : Param} (h : paramLE a b) : claimOrder a b := by
  rcases pathNameLess_trichotomy a.path a.name b.path b.name with hlt | hgt |
      ⟨hp, hn⟩
  · rcases pathNameLess_char _ _ _ _ hlt with h1 | h2 | h3
    · exact .inr (.inl h1)
    · exact .inr (.inr h2)
    · exact .inl ⟨h3.1, le_of_lt h3.2⟩
  · rw [paramLE, paramLess] at h
    rw [hgt] at h
    cases h
  · exact .inl ⟨hp, le_of_eq hn⟩

/-- **C7 (amended).** The Param list produced by `collectParams` is sorted
so that for every two entries, the one whose path strictly extends the
other's path (the child) comes first, paths that differ at some segment are
ordered lexicographically by the first differing segment, and entries with
equal paths are ordered by parameter name
(`src/mcfg/mcfg.go:21-40,45-62`). -/
theorem collectParams_sorted (t : CtxTree) :
    (collectParams t).Pairwise claimOrder := by
  have hsorted : List.Sorted paramLE (collectParams t) :=
    @List.sorted_insertionSort Param paramLE _ ⟨paramLE_total⟩
      ⟨paramLE_trans⟩ (visitParams t)
  exact List.Pairwise.imp paramLE_claimOrder hsorted

/-- **C7 (counterexample).** The claim states that a Param whose path is a
strict prefix of another's (the parent) sorts first; on the tree `exTree`,
`pParent` (path `[]`, a strict prefix of `["b"]`) is placed last:
`sortParams`'s comparator returns true when `a`'s path is longer at the
point of exhaustion, so children sort before parents
(`src/mcfg/mcfg.go:29-32`). -/
theorem collectParams_parent_first_counterexample :
    collectParams exTree = [pChild, pParent] ∧
    pParent.path <+: pChild.path ∧ pParent.path ≠ pChild.path := by
  refine ⟨?_, ⟨["b"], rfl⟩, by decide⟩
  rfl

theorem isPre_iff {l₁ l₂ : List Char} : l₁.isPrefixOf l₂ = true ↔ l₁ <+: l₂ :=
  List.isPrefixOf_iff_prefix

theorem isPre_app (l t : List Char) : l.isPrefixOf (l ++ t) = true :=
  isPre_iff.mpr ⟨t, rfl⟩

theorem ne_help_of_two_dashes {s : String} (t : List Char)
    (hd : s.data = '-' :: '-' :: t) : s ≠ "-h" := by
  intro h
  rw [h] at hd
  simp at hd

theorem cliKey_data (p : Param) :
    (cliKey p).data = '-' :: '-' :: (goJoin "-" (p.path ++ [p.name])).data := by
  rw [cliKey, String.data_append]
  rfl

theorem parseArgs_cons_match (d : Bool) (pM : List (String × Param))
    (arg : String) (rest : List String) (acc : List ParamValue)
    (key : String) (p : Param) (hh : ¬ (d = false ∧ arg = "-h"))
    (hfind : pM.find? (argMatch arg) = some (key, p)) :
    parseArgs d pM (arg :: rest) none acc =
      if arg = key then
        if p.isBool then
          parseArgs d pM rest none (acc ++ [⟨p, p.fuzzyParse "true"⟩])
        else parseArgs d pM rest (some (key, p)) acc
      else parseArgs d pM rest none
        (acc ++ [⟨p, p.fuzzyParse (strTrimPre arg (key ++ "="))⟩]) := by
  simp only [parseArgs, if_neg hh, hfind]

theorem parseArgs_cons_nomatch (d : Bool) (pM : List (String × Param))
    (arg : String) (rest : List String) (acc : List ParamValue)
    (hh : ¬ (d = false ∧ arg = "-h"))
    (hfind : pM.find? (argMatch arg) = none) :
    parseArgs d pM (arg :: rest) none acc =
      .err "unexpected config parameter" arg := by
  simp only [parseArgs, if_neg hh, hfind]

/-- **C8.** For a boolean parameter: the bare flag token alone yields a
ParamValue carrying the coercion of `"true"`; an explicit value works in the
`=` form, whose value is exactly the text after the `=`; and a
space-separated token following the boolean flag is never consumed as its
value — unless it is itself a flag token, it makes Parse fail with an
"unexpected config parameter" error (`src/mcfg/cli.go:96-110`). -/
theorem sourceCLI_bool_flag (d : Bool) (p : Param) (v t : String)
    (hb : p.isBool = true) (ht1 : t ≠ cliKey p)
    (ht2 : strHasPre t (cliKey p ++ "=") = false) (ht3 : t ≠ "-h") :
    sourceCLIParse d [cliKey p] [p] = .ok [⟨p, p.fuzzyParse "true"⟩] ∧
    sourceCLIParse d [cliKey p ++ "=" ++ v] [p] = .ok [⟨p, p.fuzzyParse v⟩] ∧
    sourceCLIParse d [cliKey p, t] [p] =
      .err "unexpected config parameter" t := by
  have h1 : cliParams [p] = [(cliKey p, p)] := rfl
  have hhk : ¬ (d = false ∧ cliKey p = "-h") :=
    fun hc => ne_help_of_two_dashes _ (cliKey_data p) hc.2
  have hfk : List.find? (argMatch (cliKey p)) [(cliKey p, p)] =
      some (cliKey p, p) :=
    List.find?_cons_of_pos _ (by simp [argMatch])
  refine ⟨?_, ?_, ?_⟩
  · show parseArgs d (cliParams [p]) [cliKey p] none [] = _
    rw [h1, parseArgs_cons_match d _ _ [] [] (cliKey p) p hhk hfk,
      if_pos rfl, if_pos hb]
    rfl
  · show parseArgs d (cliParams [p]) [cliKey p ++ "=" ++ v] none [] = _
    have harg : ((cliKey p ++ "=") ++ v).data =
        '-' :: '-' :: (((goJoin "-" (p.path ++ [p.name])).data ++ ['=']) ++
          v.data) := by
      rw [String.data_append, String.data_append, cliKey, String.data_append]
      rfl
    have hhv : ¬ (d = false ∧ (cliKey p ++ "=") ++ v = "-h") :=
      fun hc => ne_help_of_two_dashes _ harg hc.2
    have hnev : (cliKey p ++ "=") ++ v ≠ cliKey p := by
      intro hc
      have hd := congrArg String.data hc
      rw [String.data_append, String.data_append] at hd
      have hlen := congrArg List.length hd
      rw [List.length_append, List.length_append] at hlen
      have h1' : ("=" : String).data.length = 1 := rfl
      rw [h1'] at hlen
      omega
    have hpre : strHasPre ((cliKey p ++ "=") ++ v) (cliKey p ++ "=") = true := by
      simp only [strHasPre]
      rw [show ((cliKey p ++ "=") ++ v).data =
        (cliKey p ++ "=").data ++ v.data from String.data_append _ _]
      exact isPre_app _ _
    have hfv : List.find? (argMatch ((cliKey p ++ "=") ++ v))
        [(cliKey p, p)] = some (cliKey p, p) :=
      List.find?_cons_of_pos _ (by simp [argMatch, hpre])
    rw [h1, parseArgs_cons_match d _ _ [] [] (cliKey p) p hhv hfv,
      if_neg hnev]
    have htrim : strTrimPre ((cliKey p ++ "=") ++ v) (cliKey p ++ "=") = v := by
      simp only [strTrimPre, hpre, if_true]
      rw [show ((cliKey p ++ "=") ++ v).data =
        (cliKey p ++ "=").data ++ v.data from String.data_append _ _]
      rw [List.drop_left]
    rw [htrim]
    rfl
  · show parseArgs d (cliParams [p]) [cliKey p, t] none [] = _
    rw [h1, parseArgs_cons_match d _ _ [t] [] (cliKey p) p hhk hfk,
      if_pos rfl, if_pos hb]
    have hht : ¬ (d = false ∧ t = "-h") := fun hc => ht3 hc.2
    have hft : List.find? (argMatch t) [(cliKey p, p)] = none := by
      rw [List.find?_cons_of_neg _ (by simp [argMatch, ht1, ht2])]
      exact List.find?_nil
    exact parseArgs_cons_nomatch d _ t [] _ hht hft

theorem sourceCLI_bool_flag_witness :
    sourceCLIParse true [cliKey pBool] [pBool] =
      .ok [⟨pBool, pBool.fuzzyParse "true"⟩] ∧
    sourceCLIParse true [cliKey pBool ++ "=" ++ "false"] [pBool] =
      .ok [⟨pBool, pBool.fuzzyParse "false"⟩] ∧
    sourceCLIParse true [cliKey pBool, "x"] [pBool] =
      .err "unexpected config parameter" "x" :=
  sourceCLI_bool_flag true pBool "false" "x" rfl (by decide) (by decide)
    (by decide)

theorem goJoin_concat (sep nm : String) :
    ∀ path : List String, path ≠ [] →
      goJoin sep (path ++ [nm]) = goJoin sep path ++ sep ++ nm := by
  intro path
  induction path with
  | nil => intro h; exact absurd rfl h
  | cons x rest ih =>
    intro _
    cases rest with
    | nil => rfl
    | cons y rest' =>
      show x ++ sep ++ goJoin sep ((y :: rest') ++ [nm]) = _
      rw [ih (List.cons_ne_nil y rest')]
      show _ = x ++ sep ++ goJoin sep (y :: rest') ++ sep ++ nm
      simp only [String.append_assoc]

/-- **C9.** The CLI Source derives exactly one flag string per declared
Param: `--` followed by the path segments joined by `-`, followed by `-`
and the name; a root-level Param (empty path) gets `--` followed by just
the name, with no extra dash (`src/mcfg/cli.go:126-133`). -/
theorem cliKey_flag_derivation (p : Param) :
    cliParams [p] = [(cliKey p, p)] ∧
    (p.path = [] → cliKey p = "--" ++ p.name) ∧
    (p.path ≠ [] →
      cliKey p = "--" ++ goJoin "-" p.path ++ "-" ++ p.name) := by
  refine ⟨rfl, ?_, ?_⟩
  · intro h
    rw [cliKey, h]
    rfl
  · intro h
    rw [cliKey, goJoin_concat "-" p.name p.path h]
    simp only [String.append_assoc]

theorem cliKey_flag_derivation_witness :
    cliKey pFooBar = "--" ++ goJoin "-" ["foo"] ++ "-" ++ "bar" :=
  (cliKey_flag_derivation pFooBar).2.2 (by decide)

theorem takePre {α : Type} (n : Nat) (l : List α) : l.take n <+: l :=
  List.take_prefix n l

theorem pre_total {l1 l2 l3 : List Char} (h1 : l1 <+: l3) (h2 : l2 <+: l3) :
    l1 <+: l2 ∨ l2 <+: l1 := by
  have he1 : l3.take l1.length = l1 := by
    obtain ⟨t, rfl⟩ := h1
    exact List.take_left _ _
  have he2 : l3.take l2.length = l2 := by
    obtain ⟨t, rfl⟩ := h2
    exact List.take_left _ _
  rcases le_total l1.length l2.length with hle | hle
  · left
    have hc : l2.take l1.length = l1 := by
      rw [← he2, List.take_take, min_eq_left hle, he1]
    rw [← hc]
    exact takePre _ _
  · right
    have hc : l1.take l2.length = l2 := by
      rw [← he1, List.take_take, min_eq_left hle, he2]
    rw [← hc]
    exact takePre _ _

theorem eq_of_pre_concat_eq {k1 k2 : List Char}
    (h : (k1 ++ ['=']) <+: (k2 ++ ['=']))
    (h2 : ('=' : Char) ∉ k2) : k1 = k2 := by
  have hlen : k1.length + 1 ≤ k2.length + 1 := by
    have := h.length_le
    simpa using this
  rcases eq_or_lt_of_le (Nat.le_of_succ_le_succ hlen) with heq | hlt
  · have hfull : k1 ++ ['='] = k2 ++ ['='] :=
      h.eq_of_length (by simp [heq])
    exact List.append_cancel_right hfull
  · exfalso
    have hpre2 : (k1 ++ ['=']) <+: k2 := by
      obtain ⟨t, ht⟩ := h
      have htake : (k2 ++ ['=']).take (k1.length + 1) = k1 ++ ['='] := by
        rw [← ht]
        have : (k1 ++ ['=']).length = k1.length + 1 := by simp
        rw [← this]
        exact List.take_left _ _
      rw [List.take_append_of_le_length hlt] at htake
      rw [← htake]
      exact takePre _ _
    have hmem : ('=' : Char) ∈ k1 ++ ['='] :=
      List.mem_append_right _ (List.mem_singleton.mpr rfl)
    exact h2 (hpre2.subset hmem)

theorem argMatch_true_elim {arg : String} {e : String × Param}
    (h : argMatch arg e = true) :
    arg = e.1 ∨ (e.1 ++ "=").data <+: arg.data := by
  simp only [argMatch, Bool.or_eq_true, decide_eq_true_eq, strHasPre] at h
  rcases h with h | h
  · exact .inl h
  · exact .inr (isPre_iff.mp h)

theorem argMatch_key_eq {arg k1 k2 : String} {p1 p2 : Param}
    (h1 : ('=' : Char) ∉ k1.data) (h2 : ('=' : Char) ∉ k2.data)
    (m1 : argMatch arg (k1, p1) = true) (m2 : argMatch arg (k2, p2) = true) :
    k1 = k2 := by
  have e1 : (k1 ++ "=").data = k1.data ++ ['='] := by
    rw [String.data_append]
  have e2 : (k2 ++ "=").data = k2.data ++ ['='] := by
    rw [String.data_append]
  have el1 : arg = k1 ∨ k1.data ++ ['='] <+: arg.data := by
    rcases argMatch_true_elim m1 with h | h
    · exact .inl h
    · refine .inr ?_
      rw [← e1]
      exact h
  have el2 : arg = k2 ∨ k2.data ++ ['='] <+: arg.data := by
    rcases argMatch_true_elim m2 with h | h
    · exact .inl h
    · refine .inr ?_
      rw [← e2]
      exact h
  rcases el1 with hm1 | hm1 <;> rcases el2 with hm2 | hm2
  · exact hm1.symm.trans hm2
  · exfalso
    rw [hm1] at hm2
    have hmem : ('=' : Char) ∈ k2.data ++ ['='] :=
      List.mem_append_right _ (List.mem_singleton.mpr rfl)
    exact h1 (hm2.subset hmem)
  · exfalso
    rw [hm2] at hm1
    have hmem : ('=' : Char) ∈ k1.data ++ ['='] :=
      List.mem_append_right _ (List.mem_singleton.mpr rfl)
    exact h2 (hm1.subset hmem)
  · have hdata : k1.data = k2.data := by
      rcases pre_total hm1 hm2 with hc | hc
      · exact eq_of_pre_concat_eq hc h2
      · exact (eq_of_pre_concat_eq hc h1).symm
    exact String.ext hdata

theorem find?_congr_perm {α : Type} {l1 l2 : List α} {f : α → Bool}
    (hperm : l1.Perm l2)
    (huniq : ∀ a ∈ l1, ∀ b ∈ l1, f a = true → f b = true → a = b) :
    l1.find? f = l2.find? f := by
  cases hf1 : l1.find? f with
  | none =>
    cases hf2 : l2.find? f with
    | none => rfl
    | some b =>
      have hb := List.find?_some hf2
      have hbm := List.mem_of_find?_eq_some hf2
      exact absurd hb (List.find?_eq_none.mp hf1 b (hperm.mem_iff.mpr hbm))
  | some a =>
    have ha := List.find?_some hf1
    have ham := List.mem_of_find?_eq_some hf1
    cases hf2 : l2.find? f with
    | none =>
      exact absurd ha (List.find?_eq_none.mp hf2 a (hperm.mem_iff.mp ham))
    | some b =>
      have hb := List.find?_some hf2
      have hbm := List.mem_of_find?_eq_some hf2
      rw [huniq a ham b (hperm.mem_iff.mpr hbm) ha hb]

theorem parseArgs_cons_help (d : Bool) (pM : List (String × Param))
    (arg : String) (rest : List String) (acc : List ParamValue)
    (hh : d = false ∧ arg = "-h") :
    parseArgs d pM (arg :: rest) none acc = .helpExit := by
  simp only [parseArgs, if_pos hh]

theorem parseArgs_congr (d : Bool) {pM1 pM2 : List (String × Param)}
    (hfind : ∀ arg, pM1.find? (argMatch arg) = pM2.find? (argMatch arg)) :
    ∀ (args : List String) (pending : Option (String × Param))
      (acc : List ParamValue),
      parseArgs d pM1 args pending acc = parseArgs d pM2 args pending acc := by
  intro args
  induction args with
  | nil => intro pending acc; rfl
  | cons arg rest ih =>
    intro pending acc
    cases pending with
    | some kp =>
      obtain ⟨k, p⟩ := kp
      simp only [parseArgs]
      exact ih _ _
    | none =>
      by_cases hh : d = false ∧ arg = "-h"
      · rw [parseArgs_cons_help d pM1 arg rest acc hh,
          parseArgs_cons_help d pM2 arg rest acc hh]
      · cases hf2 : pM2.find? (argMatch arg) with
        | none =>
          rw [parseArgs_cons_nomatch d pM1 arg rest acc hh
              ((hfind arg).trans hf2),
            parseArgs_cons_nomatch d pM2 arg rest acc hh hf2]
        | some kp =>
          obtain ⟨k, p⟩ := kp
          rw [parseArgs_cons_match d pM1 arg rest acc k p hh
              ((hfind arg).trans hf2),
            parseArgs_cons_match d pM2 arg rest acc k p hh hf2]
          by_cases hak : arg = k
          · rw [if_pos hak, if_pos hak]
            by_cases hbool : p.isBool
            · rw [if_pos hbool, if_pos hbool]
              exact ih _ _
            · rw [if_neg hbool, if_neg hbool]
              exact ih _ _
          · rw [if_neg hak, if_neg hak]
            exact ih _ _

theorem cliInsert_keys (k : String) (p : Param) :
    ∀ m : List (String × Param),
      (cliInsert k p m).map Prod.fst =
        if k ∈ m.map Prod.fst then m.map Prod.fst
        else m.map Prod.fst ++ [k] := by
  intro m
  induction m with
  | nil => simp [cliInsert]
  | cons e rest ih =>
    obtain ⟨k', p'⟩ := e
    by_cases hk : k' = k
    · subst hk
      simp [cliInsert]
    · simp only [cliInsert, if_neg hk, List.map_cons, ih]
      by_cases hmem : k ∈ rest.map Prod.fst
      · rw [if_pos hmem,
          if_pos (List.mem_cons_of_mem _ hmem)]
      · rw [if_neg hmem, if_neg ?_]
        · simp
        · intro hc
          rcases List.mem_cons.mp hc with hc1 | hc1
          · exact hk hc1.symm
          · exact hmem hc1

theorem cliParams_keys_nodup (params : List Param) :
    ((cliParams params).map Prod.fst).Nodup := by
  suffices h : ∀ m : List (String × Param), (m.map Prod.fst).Nodup →
      ((params.foldl (fun m p => cliInsert (cliKey p) p m) m).map
        Prod.fst).Nodup by
    exact h [] (by simp)
  induction params with
  | nil => intro m hm; exact hm
  | cons p rest ih =>
    intro m hm
    simp only [List.foldl_cons]
    refine ih _ ?_
    rw [cliInsert_keys]
    by_cases hmem : cliKey p ∈ m.map Prod.fst
    · rw [if_pos hmem]
      exact hm
    · rw [if_neg hmem]
      refine List.Nodup.append hm (List.nodup_singleton _) ?_
      intro a ha hb
      rw [List.mem_singleton] at hb
      subst hb
      exact hmem ha

/-- **C10.** `SourceCLI.Parse` is deterministic despite iterating a Go map
to match argument tokens against flag keys, provided no derived flag key
contains `=`: each token then matches at most one flag entry, so running
the tokenizer with the flag map enumerated in any order (any permutation
of `cliParams params`) returns the same ParamValue list and the same error
outcome (`src/mcfg/cli.go:66-94,126-133`). -/
theorem sourceCLIParse_deterministic (d : Bool) (params : List Param)
    (pM2 : List (String × Param)) (args : List String)
    (hperm : pM2.Perm (cliParams params))
    (hkeys : ∀ k ∈ (cliParams params).map Prod.fst, ('=' : Char) ∉ k.data) :
    parseArgs d pM2 args none [] =
      parseArgs d (cliParams params) args none [] := by
  refine parseArgs_congr d ?_ args none []
  intro arg
  refine find?_congr_perm hperm ?_
  intro a ha b hb hfa hfb
  obtain ⟨ka, pa⟩ := a
  obtain ⟨kb, pb⟩ := b
  have ha' : (ka, pa) ∈ cliParams params := hperm.subset ha
  have hb' : (kb, pb) ∈ cliParams params := hperm.subset hb
  have hka := hkeys ka (List.mem_map_of_mem Prod.fst ha')
  have hkb := hkeys kb (List.mem_map_of_mem Prod.fst hb')
  have hkeq : ka = kb := argMatch_key_eq hka hkb hfa hfb
  exact List.inj_on_of_nodup_map (cliParams_keys_nodup params) ha' hb' hkeq

theorem sourceCLIParse_deterministic_witness :
    parseArgs true [(cliKey pFooBar, pFooBar), (cliKey pBool, pBool)]
        ["--b", "--foo-bar", "7"] none [] =
      parseArgs true (cliParams [pBool, pFooBar])
        ["--b", "--foo-bar", "7"] none [] :=
  sourceCLIParse_deterministic true [pBool, pFooBar]
    [(cliKey pFooBar, pFooBar), (cliKey pBool, pBool)]
    ["--b", "--foo-bar", "7"]
    (List.Perm.swap (cliKey pBool, pBool) (cliKey pFooBar, pFooBar) [])
    (by decide)

end Mcfg

namespace Mctx

theorem runSched_some (l : List Nat) (v : Int) :
    runSched l (some v) = some (v + l.length) := by
  induction l generalizing v with
  | nil => simp [runSched]
  | cons x l ih =>
    show runSched l (some (v + 1)) = _
    rw [ih]
    congr 1
    rw [List.length_cons]
    push_cast
    ring

/-- **C2.** For `N` concurrent callers each performing `K` increment-style
transforms via `GetSetMutableValue` against the same node (flag false), the
final stored value equals `N*K`: no transform application is lost, because
each get-transform-store is atomic under the node's lock
(`src/mctx/ctx_test.go:120-151`). -/
theorem getSet_no_lost_updates (N K : Nat) (sched : List Nat)
    (hN : 0 < N) (hK : 0 < K) (hlen : sched.length = N * K) :
    runSched sched none = some (N * K) := by
  cases sched with
  | nil =>
    rw [List.length_nil] at hlen
    exact absurd hlen.symm (Nat.pos_iff_ne_zero.mp (Nat.mul_pos hN hK))
  | cons x l =>
    show runSched l (some 1) = _
    rw [runSched_some]
    rw [List.length_cons] at hlen
    congr 1
    omega

theorem getSet_no_lost_updates_witness :
    runSched [0, 1, 2, 3, 4, 5] none = some ((2 * 3 : Nat) : Int) :=
  getSet_no_lost_updates 2 3 [0, 1, 2, 3, 4, 5] (by decide) (by decide) rfl

/-- **C3 (amended).** `GetSetMutableValue` passes the existing stored value
to the transform, or nil when no value is stored; when the flag is false it
always stores the transform's result and returns it; and when the flag is
true and a value `v` is already stored, it returns `v` unchanged without
applying the transform — not `transform(nil)`
(`src/mctx/ctx_test.go:95-118`). -/
theorem getSetMutableValue_semantics (flag : Bool) (fn : Option Int → Int)
    (st : Option Int) :
    (st = none → GetSetMutableValue flag fn st = (fn none, some (fn none))) ∧
    (flag = false → GetSetMutableValue flag fn st = (fn st, some (fn st))) ∧
    (∀ v : Int, st = some v → flag = true →
      GetSetMutableValue flag fn st = (v, some v)) := by
  refine ⟨?_, ?_, ?_⟩
  · rintro rfl
    cases flag <;> rfl
  · rintro rfl
    rfl
  · rintro v rfl rfl
    rfl

theorem getSetMutableValue_semantics_witness :
    GetSetMutableValue true testFn (some 1) = (1, some 1) :=
  (getSetMutableValue_semantics true testFn (some 1)).2.2 1 rfl rfl

/-- **C3 (counterexample).** Replaying `TestMutableValues`
(`src/mctx/ctx_test.go:106-108`): the two flag-false calls store `0` then
`1`, and the test asserts the third call — flag set, stored value `1` —
returns `1`, the stored value; the claim predicts it returns
`transform(nil) = 0` (the spec's literal reading, which computes `0` here
and so fails the test's asserted value).  Since `1 ≠ 0`, the claim is false
on the code. -/
theorem getSetMutableValue_forceReset_counterexample :
    (GetSetMutableValue false testFn none).snd = some 0 ∧
    (GetSetMutableValue false testFn (some 0)).snd = some 1 ∧
    (GetSetMutableValue true testFn (some 1)).fst = 1 ∧
    (GetSetMutableValueSpecReading true testFn (some 1)).fst = testFn none ∧
    testFn none = 0 ∧ (1 : Int) ≠ 0 :=
  ⟨rfl, rfl, rfl, rfl, rfl, by decide⟩


end Mctx
